import Mathlib

/-! Formal model of the core logic of `src/app.py` (Vegas happy-hour finder):
the price-annotation heuristic `fix_prices`, the time-window predicate
`row_is_in_window`, the all-day flag `is_all_day`, the favorites merge
`new_favorites`, and the favorites-file load/save error handling.

Strings are modelled as `List Char`; the regex
`\b(\d+)(?=\s+(?!pbr|domestic|...)\w)` with `re.IGNORECASE` used by
`fix_prices` is unfolded into its operational meaning over ASCII text:
character classes become boolean character predicates, the word boundary
becomes a check on the preceding character, and `re.sub`'s left-to-right
scan with non-overlapping match consumption becomes a recursion that
consumes the matched digit run. Times of day are modelled as `Nat`
seconds since midnight (Python `datetime.time` compares lexicographically
on (hour, minute, second), which agrees with the seconds count).
File input and output is modelled by passing the outcome of the read or
write explicitly, with `Except` capturing raised exceptions. -/

namespace VegasHH

/-- ASCII model of the Python regex class `\s` (whitespace). -/
def isPySpace (c : Char) : Bool :=
  c = ' ' || c = '\t' || c = '\n' || c = '\r' || c = '\x0b' || c = '\x0c'

/-- ASCII model of the Python regex class `\w` (word character). -/
def isWordChar (c : Char) : Bool :=
  c.isAlphanum || c = '_'

/-- The hard-coded `quantity_words` list from `fix_prices` in `src/app.py`,
in source order. -/
def quantityWords : List String :=
  ["pbr", "domestic", "wells", "well", "draft", "drafts", "beer", "beers",
   "wine", "wines", "shots", "shot", "martinis", "martini", "seltzers",
   "seltzer", "rtds", "rtd", "margarita", "margaritas", "cocktail",
   "cocktails", "oysters", "apps", "appetizers", "tapas"]

/-- Model of the negative lookahead `(?!pbr|domestic|...)` under
`re.IGNORECASE`: some quantity word matches case-insensitively at this
position (i.e. is a case-insensitive leading segment of the remaining text). -/
def qtyHit (r2 : List Char) : Bool :=
  quantityWords.any fun q => q.data.isPrefixOf (r2.map Char.toLower)

/-- Word-boundary test `\b` before a digit: the preceding character (if any)
is not a word character. -/
def prevNonWord : Option Char → Bool
  | none => true
  | some c => !isWordChar c

/-- Model of the lookahead tail `(?=\s+(?!qty)\w)` applied to the text `r`
that follows a maximal digit run: at least one whitespace character, then a
word character at a position where no quantity word matches. -/
def followerOk (r : List Char) : Bool :=
  match r.dropWhile isPySpace with
  | [] => false
  | y :: t => !(r.takeWhile isPySpace).isEmpty && isWordChar y && !qtyHit (y :: t)

/-- The part of `followerOk` after at least one whitespace character has
been consumed: `followerOk (x :: l) = follower2 l` whenever `x` is
whitespace. -/
def follower2 (l : List Char) : Bool :=
  match l.dropWhile isPySpace with
  | [] => false
  | y :: t => isWordChar y && !qtyHit (y :: t)

/-- A regex match of `\b(\d+)(?=\s+(?!qty)\w)` starts at the head of `l`,
where `prev` is the character immediately before `l` in the whole text
(`none` at the start of the string). The digit run taken is maximal: `\d+`
is greedy, and backtracking to a shorter run cannot succeed because the
character after a shorter run is a digit, not whitespace. -/
def matchAt (prev : Option Char) : List Char → Bool
  | [] => false
  | c :: cs => c.isDigit && prevNonWord prev && followerOk (cs.dropWhile (·.isDigit))

/-- Faithful model of `re.sub(pattern, repl, text)` in `fix_prices`:
scan left to right; at a match, emit the replacement — the digit run kept
bare when the character before it in the original text is `'$'`
(the `repl` closure's check), otherwise `'$'` prepended — and resume after
the consumed digit run; otherwise emit the character and move on.
`prev` is the original character preceding the unscanned text. -/
def reSubPrice (prev : Option Char) (l : List Char) : List Char :=
  match l with
  | [] => []
  | c :: cs =>
    if matchAt prev (c :: cs) then
      (if prev = some '$' then c :: cs.takeWhile (·.isDigit)
       else '$' :: c :: cs.takeWhile (·.isDigit))
      ++ reSubPrice (some ((c :: cs.takeWhile (·.isDigit)).getLast (List.cons_ne_nil _ _)))
          (cs.dropWhile (·.isDigit))
    else
      c :: reSubPrice (some c) cs
termination_by l.length
decreasing_by
  · simp only [List.length_cons]
    exact Nat.lt_succ_of_le (List.dropWhile_sublist _).length_le
  · simp

/-- Character-by-character form of `reSubPrice`. Positions strictly inside a
digit run can never start a match (`\b` fails there because the previous
character is a digit), so consuming the matched run wholesale is equivalent
to stepping one character at a time; `reSubPrice_eq_subAuxS` proves this. -/
def subAuxS (prev : Option Char) : List Char → List Char
  | [] => []
  | c :: cs =>
    (if matchAt prev (c :: cs) && !(prev == some '$') then ['$'] else [])
      ++ c :: subAuxS (some c) cs

/-- Model of `fix_prices` from `src/app.py`. -/
def fix_prices (text : String) : String :=
  if text.isEmpty then text else String.mk (reSubPrice none text.data)

/-- Does the optional preceding character exist and hold a digit? -/
def digitPrev : Option Char → Bool
  | none => false
  | some c => c.isDigit

/-- Checker for the output-shape guarantee at the granularity of maximal
digit runs: `annOk pd inp out` holds when `out` is `inp` with zero or one
`'$'` inserted immediately before the first digit of each maximal digit run
(`pd` records whether the character before `inp` is a digit, so that a run
start is recognisable). -/
def annOk (pd : Bool) : List Char → List Char → Bool
  | [], [] => true
  | [], _ :: _ => false
  | _ :: _, [] => false
  | i :: is, o :: os =>
    if o = i then annOk i.isDigit is os
    else if o = '$' && i.isDigit && !pd then
      match os with
      | [] => false
      | o2 :: os2 => o2 = i && annOk i.isDigit is os2
    else false

/-- Digit-ness of the last character of `s`, defaulting to `pd` when `s` is
empty: the `annOk` state after copying the segment `s`. -/
def pdAfter (s : List Char) (pd : Bool) : Bool :=
  match s.getLast? with
  | none => pd
  | some c => c.isDigit

/-- Checker for the spec's wording of the output guarantee, where a number
run is a maximal run of digits together with an optional `'.'` and further
digits: a `'$'` may be inserted only at the start of such a dotted run, so a
digit preceded by `'.'` which is itself preceded by a digit is not a legal
insertion point. `p1` and `p2` are the previous and second-previous input
characters. -/
def annOkDotted (p2 p1 : Option Char) : List Char → List Char → Bool
  | [], [] => true
  | [], _ :: _ => false
  | _ :: _, [] => false
  | i :: is, o :: os =>
    if o = i then annOkDotted p1 (some i) is os
    else if o = '$' && i.isDigit && !digitPrev p1
            && !(p1 == some '.' && digitPrev p2) then
      match os with
      | [] => false
      | o2 :: os2 => o2 = i && annOkDotted p1 (some i) is os2
    else false

/-- Model of `row_is_in_window` from `src/app.py`: `start` and `endT` are the
row's cleaned start and end times (`none` for a missing value, mirroring the
`pd.isna` checks); `query` is the selected time. Times are seconds since
midnight. -/
def row_is_in_window (start endT : Option Nat) (query : Nat) : Bool :=
  match start, endT with
  | some s, some e =>
    if s ≤ e then decide (s ≤ query) && decide (query < e)
    else decide (query ≥ s) || decide (query < e)
  | _, _ => false

/-- Model of `is_all_day` from `load_data` in `src/app.py`:
`start == time(0, 0) and end >= time(23, 0)`, with missing values giving
`False`. `time(23, 0)` is 82800 seconds after midnight. -/
def is_all_day (start endT : Option Nat) : Bool :=
  match start, endT with
  | some s, some e => decide (s = 0) && decide (82800 ≤ e)
  | _, _ => false

/-- Model of the favorites merge performed in both the desktop table view and
the mobile card view of `src/app.py`:
`new_favorites = {key: old_favorites.get(key, {"tags": []}) for key in new_fav_keys}`.
A mapping is modelled as a partial function from keys to tag lists, a
Python dict comprehension being exactly such a map on its key set. -/
def new_favorites (new_fav_keys : List String)
    (old_favorites : String → Option (List String)) :
    String → Option (List String) :=
  fun k => if k ∈ new_fav_keys then some ((old_favorites k).getD []) else none

/-- Shapes a parsed JSON document can take; only the top-level shape matters
to the favorites loader. -/
inductive JsonVal where
  | jdict : List (String × JsonVal) → JsonVal
  | jlist : List JsonVal → JsonVal
  | jstr : String → JsonVal
  | jnum : Int → JsonVal
  | jbool : Bool → JsonVal
  | jnull : JsonVal

/-- Model of `load_favorites_from_file` from `src/app.py`. `fileExists`
models `os.path.exists(FAVORITES_FILE)`; `parsed` models the outcome of
`json.load` (`Except.error` when it raises). The `try/except Exception: pass`
and the `isinstance(data, dict)` check make every branch return normally:
the result is `Except.ok` in all cases, `{}` unless the file existed and
parsed to a dict. -/
def load_favorites_from_file (fileExists : Bool)
    (parsed : Except String JsonVal) : Except String JsonVal :=
  if !fileExists then .ok (.jdict [])
  else
    match parsed with
    | .error _ => .ok (.jdict [])
    | .ok (.jdict entries) => .ok (.jdict entries)
    | .ok _ => .ok (.jdict [])

/-- Model of `save_favorites_to_file` from `src/app.py`: the write outcome
(`Except.error` when `open`/`json.dump` raises) is swallowed by
`try/except Exception: pass`, so the function always returns normally. -/
def save_favorites_to_file (writeOutcome : Except String Unit) :
    Except String Unit :=
  match writeOutcome with
  | .ok _ => .ok ()
  | .error _ => .ok ()

/-! Character-class facts used in the `fix_prices` development. -/

theorem toNat_le_toNat {a b : UInt32} (h : a ≤ b) : a.toNat ≤ b.toNat := by
  rw [UInt32.le_def, BitVec.le_def] at h
  exact h

/-- Lowercasing fixes digits: only `A`–`Z` is moved by `Char.toLower`. -/
theorem toLower_of_digit {c : Char} (h : c.isDigit = true) : Char.toLower c = c := by
  simp only [Char.isDigit, Bool.and_eq_true, decide_eq_true_eq] at h
  unfold Char.toLower
  rw [if_neg]
  rintro ⟨h1, h2⟩
  simp only [Char.toNat] at h1 h2
  obtain ⟨hl, hr⟩ := h
  have hl' := toNat_le_toNat (ge_iff_le.mp hl)
  have hr' := toNat_le_toNat hr
  have e48 : (48 : UInt32).toNat = 48 := rfl
  have e57 : (57 : UInt32).toNat = 57 := rfl
  rw [e48] at hl'
  rw [e57] at hr'
  omega

/-- Letters are not digits. -/
theorem not_isDigit_of_isAlpha {c : Char} (h : c.isAlpha = true) : c.isDigit = false := by
  simp only [Char.isAlpha, Char.isUpper, Char.isLower, Bool.or_eq_true,
    Bool.and_eq_true, decide_eq_true_eq] at h
  by_contra hd
  rw [Bool.not_eq_false] at hd
  simp only [Char.isDigit, Bool.and_eq_true, decide_eq_true_eq] at hd
  obtain ⟨hd1, hd2⟩ := hd
  have d1 := toNat_le_toNat (ge_iff_le.mp hd1)
  have d2 := toNat_le_toNat hd2
  have e48 : (48 : UInt32).toNat = 48 := rfl
  have e57 : (57 : UInt32).toNat = 57 := rfl
  rw [e48] at d1
  rw [e57] at d2
  rcases h with ⟨h1, h2⟩ | ⟨h1, h2⟩
  · have a1 := toNat_le_toNat (ge_iff_le.mp h1)
    have a2 := toNat_le_toNat h2
    have e65 : (65 : UInt32).toNat = 65 := rfl
    have e90 : (90 : UInt32).toNat = 90 := rfl
    rw [e65] at a1
    rw [e90] at a2
    omega
  · have a1 := toNat_le_toNat (ge_iff_le.mp h1)
    have a2 := toNat_le_toNat h2
    have e97 : (97 : UInt32).toNat = 97 := rfl
    have e122 : (122 : UInt32).toNat = 122 := rfl
    rw [e97] at a1
    rw [e122] at a2
    omega

theorem isWordChar_of_digit {c : Char} (h : c.isDigit = true) : isWordChar c = true := by
  simp [isWordChar, Char.isAlphanum, h]

theorem not_isWordChar_of_isPySpace {c : Char} (h : isPySpace c = true) :
    isWordChar c = false := by
  simp only [isPySpace, Bool.or_eq_true, decide_eq_true_eq] at h
  rcases h with ((((h | h) | h) | h) | h) | h <;> subst h <;> decide

theorem not_isDigit_of_isPySpace {c : Char} (h : isPySpace c = true) :
    c.isDigit = false := by
  simp only [isPySpace, Bool.or_eq_true, decide_eq_true_eq] at h
  rcases h with ((((h | h) | h) | h) | h) | h <;> subst h <;> decide

theorem not_isPySpace_of_isWordChar {c : Char} (h : isWordChar c = true) :
    isPySpace c = false := by
  cases hp : isPySpace c
  · rfl
  · rw [not_isWordChar_of_isPySpace hp] at h
    cases h

/-- A char whose lowercase form is a given letter is itself not a digit. -/
theorem not_digit_of_toLower_alpha {c d : Char} (hld : Char.toLower c = d)
    (hd : d.isAlpha = true) : c.isDigit = false := by
  cases hc : c.isDigit
  · rfl
  · rw [toLower_of_digit hc] at hld
    subst hld
    rw [not_isDigit_of_isAlpha hd] at hc
    cases hc

/-! List facts used in the `fix_prices` development. -/

theorem dropWhile_head_false {p : Char → Bool} :
    ∀ (l : List Char) (x : Char) (xs : List Char), l.dropWhile p = x :: xs → p x = false
  | [], x, xs, h => by cases h
  | a :: l, x, xs, h => by
    rw [List.dropWhile_cons] at h
    by_cases hpa : p a = true
    · rw [if_pos hpa] at h
      exact dropWhile_head_false l x xs h
    · rw [if_neg hpa] at h
      cases h
      exact Bool.not_eq_true _ ▸ Bool.eq_false_iff.mpr hpa

theorem dropWhile_append_all {p : Char → Bool} :
    ∀ (s t : List Char), (∀ x ∈ s, p x = true) → (s ++ t).dropWhile p = t.dropWhile p
  | [], _, _ => rfl
  | a :: s, t, h => by
    rw [List.cons_append, List.dropWhile_cons, if_pos (h a (List.mem_cons_self a s))]
    exact dropWhile_append_all s t fun x hx => h x (List.mem_cons_of_mem a hx)

theorem isPrefixOf_self_append : ∀ (l t : List Char), l.isPrefixOf (l ++ t) = true
  | [], _ => List.isPrefixOf_nil_left
  | a :: l, t => by
    simpa using isPrefixOf_self_append l t

theorem take_of_isPrefixOf : ∀ (q l : List Char), q.isPrefixOf l = true → l.take q.length = q
  | [], _, _ => rfl
  | _ :: _, [], h => by cases h
  | a :: q, b :: l, h => by
    change (a == b && q.isPrefixOf l) = true at h
    rw [Bool.and_eq_true, beq_iff_eq] at h
    obtain ⟨rfl, h2⟩ := h
    simp [List.take_succ_cons, take_of_isPrefixOf q l h2]

theorem length_le_of_isPrefixOf : ∀ (q l : List Char), q.isPrefixOf l = true → q.length ≤ l.length
  | [], _, _ => Nat.zero_le _
  | _ :: _, [], h => by cases h
  | a :: q, b :: l, h => by
    change (a == b && q.isPrefixOf l) = true at h
    rw [Bool.and_eq_true] at h
    simpa using length_le_of_isPrefixOf q l h.2

/-! Facts about the quantity-word list. -/

theorem qty_chars_alpha : ∀ q ∈ quantityWords, ∀ c ∈ q.data, c.isAlpha = true := by decide

theorem qty_words_ne_nil : ∀ q ∈ quantityWords, q.data ≠ [] := by decide

/-- No quantity word can match at a position holding a digit. -/
theorem qtyHit_head_digit {y : Char} (t : List Char) (hy : y.isDigit = true) :
    qtyHit (y :: t) = false := by
  cases hq : qtyHit (y :: t)
  · rfl
  · exfalso
    simp only [qtyHit, List.any_eq_true] at hq
    obtain ⟨q, hqmem, hpre⟩ := hq
    cases hqd : q.data with
    | nil => exact qty_words_ne_nil q hqmem hqd
    | cons q0 qr =>
      rw [hqd, List.map_cons] at hpre
      change (q0 == Char.toLower y && qr.isPrefixOf (t.map Char.toLower)) = true at hpre
      rw [Bool.and_eq_true, beq_iff_eq] at hpre
      have hq0 : q0 = y := by rw [hpre.1, toLower_of_digit hy]
      have hal : q0.isAlpha = true :=
        qty_chars_alpha q hqmem q0 (hqd ▸ List.mem_cons_self q0 qr)
      rw [not_isDigit_of_isAlpha (hq0 ▸ hal)] at hy
      cases hy

/-! Small-step facts about `matchAt` and `subAuxS`. -/

theorem matchAt_cons_nondigit {c : Char} (h : c.isDigit = false)
    (prev : Option Char) (cs : List Char) : matchAt prev (c :: cs) = false := by
  simp [matchAt, h]

theorem matchAt_word_prev {w : Char} (h : isWordChar w = true) :
    ∀ l, matchAt (some w) l = false
  | [] => rfl
  | c :: cs => by simp [matchAt, prevNonWord, h]

theorem subAuxS_cons_nondigit {c : Char} (h : c.isDigit = false)
    (prev : Option Char) (cs : List Char) :
    subAuxS prev (c :: cs) = c :: subAuxS (some c) cs := by
  simp [subAuxS, matchAt_cons_nondigit h]

theorem subAuxS_cons_word_prev {w : Char} (h : isWordChar w = true)
    (c : Char) (cs : List Char) :
    subAuxS (some w) (c :: cs) = c :: subAuxS (some c) cs := by
  simp [subAuxS, matchAt_word_prev h]

/-- Characters following a word character are copied verbatim while the text
stays inside a run of word characters (`\b` can never hold there). -/
theorem wordrun_copy :
    ∀ (s : List Char) (p : Char) (t : List Char), isWordChar p = true →
      (∀ x ∈ s, isWordChar x = true) →
      subAuxS (some p) (s ++ t)
        = s ++ subAuxS (some ((p :: s).getLast (List.cons_ne_nil _ _))) t
  | [], p, t, _, _ => by simp
  | a :: s, p, t, hp, hs => by
    rw [List.cons_append, subAuxS_cons_word_prev hp,
      wordrun_copy s a t (hs a (List.mem_cons_self a s))
        (fun x hx => hs x (List.mem_cons_of_mem a hx))]
    rw [List.cons_append, List.getLast_cons (List.cons_ne_nil a s)]

/-- Non-digit characters are copied verbatim whatever precedes them
(a match can only start at a digit). -/
theorem nondigit_copy :
    ∀ (s : List Char) (hs : s ≠ []) (p : Option Char) (t : List Char),
      (∀ x ∈ s, x.isDigit = false) →
      subAuxS p (s ++ t) = s ++ subAuxS (some (s.getLast hs)) t
  | [], hs, _, _, _ => absurd rfl hs
  | a :: s, _, p, t, h => by
    rw [List.cons_append, subAuxS_cons_nondigit (h a (List.mem_cons_self a s))]
    cases s with
    | nil => simp
    | cons b s' =>
      rw [nondigit_copy (b :: s') (List.cons_ne_nil _ _) (some a) t
        (fun x hx => h x (List.mem_cons_of_mem a hx))]
      rw [List.cons_append, List.getLast_cons (List.cons_ne_nil b s')]
      simp

/-! The `followerOk` bridge equations. -/

theorem followerOk_cons_space {x : Char} (hx : isPySpace x = true) (l : List Char) :
    followerOk (x :: l) = follower2 l := by
  have h1 : (x :: l).dropWhile isPySpace = l.dropWhile isPySpace := by
    rw [List.dropWhile_cons, if_pos hx]
  have h2 : (x :: l).takeWhile isPySpace = x :: l.takeWhile isPySpace := by
    rw [List.takeWhile_cons, if_pos hx]
  unfold followerOk follower2
  rw [h1]
  cases hd : l.dropWhile isPySpace with
  | nil => rfl
  | cons y t =>
    rw [h2]
    simp

theorem followerOk_cons_nonspace {x : Char} (hx : isPySpace x = false) (l : List Char) :
    followerOk (x :: l) = false := by
  have h1 : (x :: l).dropWhile isPySpace = x :: l := by
    rw [List.dropWhile_cons, if_neg (by simp [hx])]
  have h2 : (x :: l).takeWhile isPySpace = [] := by
    rw [List.takeWhile_cons, if_neg (by simp [hx])]
  unfold followerOk
  rw [h1, h2]
  simp

/-- A quantity-word match at a non-digit position survives the rewriting of
the following text: the matched region consists of letters, which
`subAuxS` copies verbatim. -/
theorem qtyHit_stable {y : Char} {t : List Char} (hq : qtyHit (y :: t) = true)
    (hy : y.isDigit = false) : qtyHit (y :: subAuxS (some y) t) = true := by
  simp only [qtyHit, List.any_eq_true] at hq
  obtain ⟨q, hqmem, hpre⟩ := hq
  have halpha : ∀ c ∈ q.data, c.isAlpha = true := qty_chars_alpha q hqmem
  cases hqd : q.data with
  | nil => exact absurd hqd (qty_words_ne_nil q hqmem)
  | cons q0 qr =>
    rw [hqd, List.map_cons] at hpre
    change (q0 == Char.toLower y && qr.isPrefixOf (t.map Char.toLower)) = true at hpre
    rw [Bool.and_eq_true, beq_iff_eq] at hpre
    obtain ⟨hq0, hqr⟩ := hpre
    simp only [qtyHit, List.any_eq_true]
    refine ⟨q, hqmem, ?_⟩
    rw [hqd, List.map_cons]
    change (q0 == Char.toLower y && qr.isPrefixOf ((subAuxS (some y) t).map Char.toLower)) = true
    rw [Bool.and_eq_true, beq_iff_eq]
    refine ⟨hq0, ?_⟩
    cases hqrn : qr with
    | nil => exact List.isPrefixOf_nil_left
    | cons q1 qr' =>
      rw [hqrn] at hqr
      have hk : (q1 :: qr').length ≤ t.length := by
        simpa using length_le_of_isPrefixOf _ _ hqr
      have htake : (t.map Char.toLower).take (q1 :: qr').length = q1 :: qr' :=
        take_of_isPrefixOf _ _ hqr
      have hmap : (t.take (q1 :: qr').length).map Char.toLower = q1 :: qr' := by
        rw [List.map_take, htake]
      have hnd : ∀ x ∈ t.take (q1 :: qr').length, x.isDigit = false := by
        intro x hx
        have hmem : Char.toLower x ∈ q1 :: qr' := by
          rw [← hmap]
          exact List.mem_map_of_mem _ hx
        have hal : (Char.toLower x).isAlpha = true := by
          refine halpha _ ?_
        -- toLower x is among the tail characters of q.data
          rw [hqd, hqrn]
          exact List.mem_cons_of_mem q0 hmem
        exact not_digit_of_toLower_alpha rfl hal
      have hne2 : t.take (q1 :: qr').length ≠ [] := by
        have hl : (t.take (q1 :: qr').length).length = (q1 :: qr').length := by
          rw [List.length_take]
          omega
        intro hnil
        rw [hnil] at hl
        simp at hl
      have hsplit : t = t.take (q1 :: qr').length ++ t.drop (q1 :: qr').length :=
        (List.take_append_drop _ _).symm
      have hrw : subAuxS (some y) t
          = t.take (q1 :: qr').length
            ++ subAuxS (some ((t.take (q1 :: qr').length).getLast hne2))
                (t.drop (q1 :: qr').length) := by
        conv_lhs => rw [hsplit]
        exact nondigit_copy _ hne2 _ _ hnd
      rw [hrw, List.map_append, hmap]
      exact isPrefixOf_self_append (q1 :: qr') _

/-- If `follower2` rejects a text, it still rejects the rewritten text. -/
theorem follower2_stable : ∀ (l : List Char) (p : Char), follower2 l = false →
    follower2 (subAuxS (some p) l) = false
  | [], _, _ => rfl
  | y :: t, p, h => by
    cases hy : isPySpace y with
    | true =>
      have e1 : follower2 (y :: t) = follower2 t := by
        unfold follower2
        rw [List.dropWhile_cons, if_pos hy]
      rw [subAuxS_cons_nondigit (not_isDigit_of_isPySpace hy)]
      have e2 : follower2 (y :: subAuxS (some y) t) = follower2 (subAuxS (some y) t) := by
        unfold follower2
        rw [List.dropWhile_cons, if_pos hy]
      rw [e2]
      exact follower2_stable t y (e1 ▸ h)
    | false =>
      have e1 : follower2 (y :: t) = (isWordChar y && !qtyHit (y :: t)) := by
        unfold follower2
        rw [List.dropWhile_cons, if_neg (by simp [hy])]
      cases hyd : y.isDigit with
      | true =>
        exfalso
        rw [e1, qtyHit_head_digit t hyd, isWordChar_of_digit hyd] at h
        simp at h
      | false =>
        rw [subAuxS_cons_nondigit hyd]
        have e2 : follower2 (y :: subAuxS (some y) t)
            = (isWordChar y && !qtyHit (y :: subAuxS (some y) t)) := by
          unfold follower2
          rw [List.dropWhile_cons, if_neg (by simp [hy])]
        rw [e2]
        cases hw : isWordChar y with
        | false => rfl
        | true =>
          have hq : qtyHit (y :: t) = true := by
            rw [e1, hw] at h
            simpa using h
          rw [qtyHit_stable hq hyd]
          rfl

/-- If `followerOk` rejects a text, it still rejects the rewritten text. -/
theorem followerOk_stable : ∀ (r : List Char) (p : Char), followerOk r = false →
    followerOk (subAuxS (some p) r) = false
  | [], _, _ => rfl
  | x :: xs, p, h => by
    cases hx : isPySpace x with
    | true =>
      rw [subAuxS_cons_nondigit (not_isDigit_of_isPySpace hx)]
      rw [followerOk_cons_space hx] at h
      rw [followerOk_cons_space hx]
      exact follower2_stable xs x h
    | false =>
      have hout : subAuxS (some p) (x :: xs)
          = (if (matchAt (some p) (x :: xs) && !(some p == some '$')) = true
              then ['$'] else []) ++ x :: subAuxS (some x) xs := rfl
      rw [hout]
      by_cases hb : (matchAt (some p) (x :: xs) && !(some p == some '$')) = true
      · rw [if_pos hb]
        exact followerOk_cons_nonspace (by decide) _
      · rw [if_neg hb]
        exact followerOk_cons_nonspace hx _

/-- A failed match attempt still fails against the rewritten tail. -/
theorem matchAt_stable {prev : Option Char} {c : Char} {cs : List Char}
    (h : matchAt prev (c :: cs) = false) :
    matchAt prev (c :: subAuxS (some c) cs) = false := by
  cases hcd : c.isDigit with
  | false => exact matchAt_cons_nondigit hcd _ _
  | true =>
    cases hpw : prevNonWord prev with
    | false =>
      show (c.isDigit && prevNonWord prev
        && followerOk ((subAuxS (some c) cs).dropWhile (·.isDigit))) = false
      rw [hcd, hpw]
      rfl
    | true =>
      have hf : followerOk (cs.dropWhile (·.isDigit)) = false := by
        have he : matchAt prev (c :: cs)
            = (c.isDigit && prevNonWord prev
              && followerOk (cs.dropWhile (·.isDigit))) := rfl
        rw [he, hcd, hpw] at h
        simpa using h
      have hcw : isWordChar c = true := isWordChar_of_digit hcd
      have htw : ∀ x ∈ cs.takeWhile (·.isDigit), isWordChar x = true := fun x hx =>
        isWordChar_of_digit (List.mem_takeWhile_imp hx)
      have hrw : subAuxS (some c) cs
          = cs.takeWhile (·.isDigit)
            ++ subAuxS (some ((c :: cs.takeWhile (·.isDigit)).getLast
                (List.cons_ne_nil _ _)))
              (cs.dropWhile (·.isDigit)) := by
        conv_lhs => rw [← List.takeWhile_append_dropWhile (·.isDigit) cs]
        exact wordrun_copy _ c _ hcw htw
      show (c.isDigit && prevNonWord prev
        && followerOk ((subAuxS (some c) cs).dropWhile (·.isDigit))) = false
      rw [hcd, hpw, hrw,
        dropWhile_append_all _ _ (fun x hx => List.mem_takeWhile_imp hx)]
      cases hdr : cs.dropWhile (·.isDigit) with
      | nil => rfl
      | cons x xs =>
        have hx : x.isDigit = false := dropWhile_head_false cs x xs hdr
        have hstable : followerOk (subAuxS
            (some ((c :: cs.takeWhile (·.isDigit)).getLast (List.cons_ne_nil _ _)))
            (x :: xs)) = false := by
          refine followerOk_stable _ _ ?_
          rw [← hdr]
          exact hf
        rw [subAuxS_cons_nondigit hx] at hstable
        rw [subAuxS_cons_nondigit hx, List.dropWhile_cons, if_neg (by simp [hx]),
          hstable]
        rfl

/-- Applying the annotator a second time changes nothing. -/
theorem subAuxS_idem : ∀ (l : List Char) (prev : Option Char),
    subAuxS prev (subAuxS prev l) = subAuxS prev l
  | [], _ => rfl
  | c :: cs, prev => by
    cases hm : (matchAt prev (c :: cs) && !(prev == some '$')) with
    | true =>
      have hout : subAuxS prev (c :: cs) = '$' :: c :: subAuxS (some c) cs := by
        show (if (matchAt prev (c :: cs) && !(prev == some '$')) = true
            then ['$'] else []) ++ c :: subAuxS (some c) cs = _
        rw [if_pos hm]
        rfl
      rw [hout, subAuxS_cons_nondigit (by decide : ('$' : Char).isDigit = false)]
      congr 1
      have hin : subAuxS (some '$') (c :: subAuxS (some c) cs)
          = c :: subAuxS (some c) (subAuxS (some c) cs) := by
        show (if (matchAt (some '$') _ && !(some '$' == some '$')) = true
            then ['$'] else []) ++ _ = _
        simp
      rw [hin, subAuxS_idem cs (some c)]
    | false =>
      have hout : subAuxS prev (c :: cs) = c :: subAuxS (some c) cs := by
        show (if (matchAt prev (c :: cs) && !(prev == some '$')) = true
            then ['$'] else []) ++ c :: subAuxS (some c) cs = _
        rw [if_neg (by rw [hm]; exact Bool.false_ne_true)]
        rfl
      rw [hout]
      cases hma : matchAt prev (c :: cs) with
      | false =>
        have h2 : matchAt prev (c :: subAuxS (some c) cs) = false := matchAt_stable hma
        have hout2 : subAuxS prev (c :: subAuxS (some c) cs)
            = c :: subAuxS (some c) (subAuxS (some c) cs) := by
          show (if (matchAt prev (c :: subAuxS (some c) cs) && !(prev == some '$')) = true
              then ['$'] else []) ++ _ = _
          rw [h2]
          rfl
        rw [hout2, subAuxS_idem cs (some c)]
      | true =>
        have hp : (prev == some '$') = true := by
          rw [hma] at hm
          simpa using hm
        have hout2 : subAuxS prev (c :: subAuxS (some c) cs)
            = c :: subAuxS (some c) (subAuxS (some c) cs) := by
          show (if (matchAt prev (c :: subAuxS (some c) cs) && !(prev == some '$')) = true
              then ['$'] else []) ++ _ = _
          rw [hp]
          simp
        rw [hout2, subAuxS_idem cs (some c)]

/-! Equivalence of `reSubPrice` with its character-by-character form, and
the evaluation form of `fix_prices`. -/

theorem reSubPrice_eq_aux :
    ∀ (n : Nat) (l : List Char), l.length ≤ n → ∀ (prev : Option Char),
      reSubPrice prev l = subAuxS prev l := by
  intro n
  induction n with
  | zero =>
    intro l hl prev
    cases l with
    | nil =>
      rw [reSubPrice]
      rfl
    | cons c cs => simp at hl
  | succ n ih =>
    intro l hl prev
    cases l with
    | nil =>
      rw [reSubPrice]
      rfl
    | cons c cs =>
      have hcs : cs.length ≤ n := by
        rw [List.length_cons] at hl
        omega
      rw [reSubPrice]
      by_cases hm : matchAt prev (c :: cs) = true
      · rw [if_pos hm]
        have he : matchAt prev (c :: cs)
            = (c.isDigit && prevNonWord prev
              && followerOk (cs.dropWhile (·.isDigit))) := rfl
        rw [he, Bool.and_eq_true, Bool.and_eq_true] at hm
        have hcd : c.isDigit = true := hm.1.1
        have hsub : subAuxS (some c) cs
            = cs.takeWhile (·.isDigit)
              ++ subAuxS (some ((c :: cs.takeWhile (·.isDigit)).getLast
                  (List.cons_ne_nil _ _)))
                (cs.dropWhile (·.isDigit)) := by
          conv_lhs => rw [← List.takeWhile_append_dropWhile (·.isDigit) cs]
          exact wordrun_copy _ c _ (isWordChar_of_digit hcd)
            (fun x hx => isWordChar_of_digit (List.mem_takeWhile_imp hx))
        have hdl : (cs.dropWhile (·.isDigit)).length ≤ n :=
          le_trans (List.dropWhile_sublist _).length_le hcs
        rw [ih _ hdl]
        have hout : subAuxS prev (c :: cs)
            = (if (matchAt prev (c :: cs) && !(prev == some '$')) = true
                then ['$'] else []) ++ c :: subAuxS (some c) cs := rfl
        rw [hout, hsub, he]
        by_cases hp : prev = some '$'
        · have hb : (prev == some '$') = true := by
            rw [hp]
            rfl
          rw [if_pos hp, hb]
          simp [hm.1.1, hm.1.2, hm.2]
        · have hb : (prev == some '$') = false := by
            cases prev with
            | none => rfl
            | some a =>
              have : ¬a = '$' := fun hc => hp (by rw [hc])
              simp [this]
          rw [if_neg hp, hb]
          simp [hm.1.1, hm.1.2, hm.2]
      · rw [if_neg hm]
        have hb : matchAt prev (c :: cs) = false := Bool.eq_false_iff.mpr hm
        rw [ih cs hcs (some c)]
        have hout : subAuxS prev (c :: cs) = c :: subAuxS (some c) cs := by
          show (if (matchAt prev (c :: cs) && !(prev == some '$')) = true
              then ['$'] else []) ++ c :: subAuxS (some c) cs = _
          rw [hb]
          rfl
        rw [hout]

theorem reSubPrice_eq (l : List Char) (prev : Option Char) :
    reSubPrice prev l = subAuxS prev l :=
  reSubPrice_eq_aux l.length l le_rfl prev

/-- Evaluation form of `fix_prices`, also covering the empty-string guard. -/
theorem fix_prices_eq (s : String) : fix_prices s = String.mk (subAuxS none s.data) := by
  unfold fix_prices
  by_cases he : s.isEmpty = true
  · rw [if_pos he]
    have hs : s = "" := (String.isEmpty_iff s).mp he
    subst hs
    rfl
  · rw [if_neg he, reSubPrice_eq]

/-! The output-shape invariant. -/

theorem digitPrev_false_of_prevNonWord {prev : Option Char}
    (h : prevNonWord prev = true) : digitPrev prev = false := by
  cases prev with
  | none => rfl
  | some c =>
    cases hc : c.isDigit with
    | false => exact hc
    | true =>
      have h' : (!isWordChar c) = true := h
      rw [isWordChar_of_digit hc] at h'
      cases h'

theorem pdAfter_cons (a : Char) (s : List Char) (pd : Bool) :
    pdAfter (a :: s) pd = pdAfter s a.isDigit := by
  unfold pdAfter
  cases s with
  | nil => rfl
  | cons b s' =>
    rw [List.getLast?_cons_cons]
    cases hgl : (b :: s').getLast? with
    | none =>
      rw [List.getLast?_eq_none_iff] at hgl
      cases hgl
    | some x => rfl

theorem annOk_self_append : ∀ (s : List Char) (pd : Bool) (t u : List Char),
    annOk (pdAfter s pd) t u = true → annOk pd (s ++ t) (s ++ u) = true
  | [], _, _, _, h => h
  | a :: s, pd, t, u, h => by
    rw [pdAfter_cons] at h
    have hrec := annOk_self_append s a.isDigit t u h
    rw [List.cons_append, List.cons_append]
    simp only [annOk]
    simpa using hrec

/-- The rewriting only ever inserts single `'$'` markers at starts of
maximal digit runs; everything else is copied. -/
theorem annOk_subAuxS : ∀ (l : List Char) (prev : Option Char),
    annOk (digitPrev prev) l (subAuxS prev l) = true
  | [], _ => rfl
  | c :: cs, prev => by
    cases hm : (matchAt prev (c :: cs) && !(prev == some '$')) with
    | false =>
      have hout : subAuxS prev (c :: cs) = c :: subAuxS (some c) cs := by
        show (if (matchAt prev (c :: cs) && !(prev == some '$')) = true
            then ['$'] else []) ++ c :: subAuxS (some c) cs = _
        rw [hm]
        rfl
      rw [hout]
      simp only [annOk]
      simpa using annOk_subAuxS cs (some c)
    | true =>
      have hout : subAuxS prev (c :: cs) = '$' :: c :: subAuxS (some c) cs := by
        show (if (matchAt prev (c :: cs) && !(prev == some '$')) = true
            then ['$'] else []) ++ c :: subAuxS (some c) cs = _
        rw [hm]
        rfl
      have hm' := hm
      rw [Bool.and_eq_true] at hm'
      have hma := hm'.1
      have he : matchAt prev (c :: cs)
          = (c.isDigit && prevNonWord prev
            && followerOk (cs.dropWhile (·.isDigit))) := rfl
      rw [he, Bool.and_eq_true, Bool.and_eq_true] at hma
      have hcd : c.isDigit = true := hma.1.1
      have hdp : digitPrev prev = false := digitPrev_false_of_prevNonWord hma.1.2
      rw [hout]
      simp only [annOk]
      have hcne : ¬('$' : Char) = c := by
        intro hcc
        rw [← hcc] at hcd
        exact absurd hcd (by decide)
      rw [if_neg hcne]
      rw [hcd, hdp]
      have hrec : annOk true cs (subAuxS (some c) cs) = true := by
        have h0 := annOk_subAuxS cs (some c)
        rwa [show digitPrev (some c) = c.isDigit from rfl, hcd] at h0
      simp [hrec]

/-- C4 (amended): the output of the price annotator is the input with zero
or one `'$'` inserted immediately before the first digit of each maximal
run of digits; all other characters are copied unchanged. (At the
granularity of plain digit runs — a decimal number such as `5.99` counts as
two runs, and the marker may legally land before the fractional run.) -/
theorem fix_prices_digit_runs_preserved (s : String) :
    annOk false s.data (fix_prices s).data = true := by
  rw [fix_prices_eq]
  exact annOk_subAuxS s.data none

/-- C4 counterexample: on `"5.99 wings"` the annotator inserts the marker
inside the dotted number token, producing `"5.$99 wings"`, which the spec's
dotted-run output guarantee (modelled by `annOkDotted`) rejects. -/
theorem fix_prices_decimal_counterexample :
    fix_prices "5.99 wings" = "5.$99 wings"
    ∧ annOkDotted none none ("5.99 wings").data ((fix_prices "5.99 wings").data)
        = false := by
  rw [fix_prices_eq]
  exact ⟨by decide, by decide⟩

/-- C5: the price annotator is idempotent, and a number immediately preceded
by the `'$'` marker is never marked again. -/
theorem fix_prices_idempotent :
    (∀ x : String, fix_prices (fix_prices x) = fix_prices x)
    ∧ (∀ (d : Char) (cs : List Char), d.isDigit = true →
        (subAuxS (some '$') (d :: cs)).head? = some d) := by
  constructor
  · intro x
    rw [fix_prices_eq x, fix_prices_eq (String.mk (subAuxS none x.data))]
    show String.mk (subAuxS none (subAuxS none x.data)) = String.mk (subAuxS none x.data)
    rw [subAuxS_idem]
  · intro d cs hd
    show ((if (matchAt (some '$') (d :: cs) && !(some '$' == some '$')) = true
        then ['$'] else []) ++ d :: subAuxS (some d) cs).head? = some d
    simp

/-- Witness for `fix_prices_idempotent`: a digit right after a `'$'` stays
bare. -/
theorem fix_prices_idempotent_witness :
    (subAuxS (some '$') ('5' :: (" wings").data)).head? = some '5' :=
  fix_prices_idempotent.2 '5' (" wings").data (by decide)

/-- C1 counterexample: the code leaves `"6 wells"` unannotated (the word
`wells` is in the hard-coded quantity list), contradicting the spec's
expected `"3 PBR, $6 wells"`. -/
theorem fix_prices_pbr_wells_counterexample :
    fix_prices "3 PBR, 6 wells" = "3 PBR, 6 wells"
    ∧ fix_prices "3 PBR, 6 wells" ≠ "3 PBR, $6 wells" := by
  rw [fix_prices_eq]
  exact ⟨by decide, by decide⟩

/-- C1 (amended): for a bare number followed by one space and a word-token,
the marker is withheld exactly when a quantity word from the hard-coded
list matches case-insensitively at the word position — not when the word is
short and uppercase. -/
theorem fix_prices_exemption_by_quantity_list (d w : Char) (t : List Char)
    (hd : d.isDigit = true) (hw : isWordChar w = true) :
    (subAuxS none (d :: ' ' :: w :: t)).head?
      = some (if qtyHit (w :: t) then d else '$') := by
  have hfol : followerOk ((' ' :: w :: t).dropWhile (·.isDigit))
      = !qtyHit (w :: t) := by
    have h1 : (' ' :: w :: t).dropWhile (·.isDigit) = ' ' :: w :: t := by
      rw [List.dropWhile_cons, if_neg (by decide)]
    rw [h1, followerOk_cons_space (by decide)]
    unfold follower2
    rw [List.dropWhile_cons, if_neg (by simp [not_isPySpace_of_isWordChar hw])]
    show (isWordChar w && !qtyHit (w :: t)) = !qtyHit (w :: t)
    rw [hw]
    simp
  have hm : matchAt none (d :: ' ' :: w :: t) = !qtyHit (w :: t) := by
    have he : matchAt none (d :: ' ' :: w :: t)
        = (d.isDigit && prevNonWord none
          && followerOk ((' ' :: w :: t).dropWhile (·.isDigit))) := rfl
    rw [he, hd, hfol]
    rfl
  show ((if (matchAt none (d :: ' ' :: w :: t) && !(none == some '$')) = true
      then ['$'] else []) ++ d :: subAuxS (some d) (' ' :: w :: t)).head?
      = some (if qtyHit (w :: t) then d else '$')
  rw [hm]
  cases hq : qtyHit (w :: t) with
  | true => simp
  | false => simp

/-- Witness for `fix_prices_exemption_by_quantity_list`: `"9 DOMESTIC"`
keeps its `9` bare because `domestic` is in the quantity list
(case-insensitively), though `DOMESTIC` has length 8. -/
theorem fix_prices_exemption_by_quantity_list_witness :
    (subAuxS none ('9' :: ' ' :: 'D' :: ("OMESTIC").data)).head? = some '9' := by
  have h := fix_prices_exemption_by_quantity_list '9' 'D' ("OMESTIC").data
    (by decide) (by decide)
  rw [h]
  decide

/-- C2 counterexample: the code has no `"for"` exemption, so `"2"` is
marked, contradicting the spec's expected `"2 for $1 margaritas"`. -/
theorem fix_prices_two_for_one_counterexample :
    fix_prices "2 for 1 margaritas" ≠ "2 for $1 margaritas" := by
  rw [fix_prices_eq]
  decide

/-- C2 (amended): there is no `"for"` exemption: `"2"` is marked because
`for` is not in the quantity list, while `"1"` stays bare because
`margaritas` is. -/
theorem fix_prices_two_for_one :
    fix_prices "2 for 1 margaritas" = "$2 for 1 margaritas" := by
  rw [fix_prices_eq]
  decide

/-- C10: a bare number whose following word-position text matches a
quantity word case-insensitively as a leading segment is never marked,
wherever it occurs; e.g. `"5 Wellington"` (leading segment `well`) and
`"4 BEERS"` (leading segment `beer`, case-insensitively). -/
theorem fix_prices_quantity_word_unmarked :
    (∀ (prev : Option Char) (c : Char) (cs : List Char),
        qtyHit ((cs.dropWhile (·.isDigit)).dropWhile isPySpace) = true →
        (subAuxS prev (c :: cs)).head? = some c)
    ∧ fix_prices "5 Wellington" = "5 Wellington"
    ∧ fix_prices "4 BEERS" = "4 BEERS" := by
  refine ⟨fun prev c cs hq => ?_, by rw [fix_prices_eq]; decide,
    by rw [fix_prices_eq]; decide⟩
  have hfol : followerOk (cs.dropWhile (·.isDigit)) = false := by
    cases hd2 : cs.dropWhile (·.isDigit) with
    | nil =>
      rw [hd2] at hq
      exact absurd hq (by decide)
    | cons x xs =>
      rw [hd2] at hq
      cases hx : isPySpace x with
      | false => exact followerOk_cons_nonspace hx xs
      | true =>
        rw [followerOk_cons_space hx]
        rw [List.dropWhile_cons, if_pos hx] at hq
        unfold follower2
        cases hd3 : xs.dropWhile isPySpace with
        | nil => rfl
        | cons y t =>
          rw [hd3] at hq
          show (isWordChar y && !qtyHit (y :: t)) = false
          rw [hq]
          simp
  have hm : matchAt prev (c :: cs) = false := by
    have he : matchAt prev (c :: cs)
        = (c.isDigit && prevNonWord prev
          && followerOk (cs.dropWhile (·.isDigit))) := rfl
    rw [he, hfol]
    simp
  show ((if (matchAt prev (c :: cs) && !(prev == some '$')) = true
      then ['$'] else []) ++ c :: subAuxS (some c) cs).head? = some c
  rw [hm]
  simp

/-- Witness for `fix_prices_quantity_word_unmarked`: in `"6 wells"` the `6`
stays bare. -/
theorem fix_prices_quantity_word_unmarked_witness :
    (subAuxS none ('6' :: (" wells").data)).head? = some '6' :=
  fix_prices_quantity_word_unmarked.1 none '6' (" wells").data (by decide)

/-- C3: with both bounds present, `row_is_in_window` matches a same-day
window (`start ≤ end`) iff `start ≤ query < end`, and an overnight window
(`start > end`) iff `query ≥ start` or `query < end`; a query equal to the
end never matches, and a window with `start = end` matches no query. -/
theorem row_is_in_window_spec (s e q : Nat) :
    (s ≤ e → (row_is_in_window (some s) (some e) q = true ↔ (s ≤ q ∧ q < e)))
    ∧ (e < s → (row_is_in_window (some s) (some e) q = true ↔ (s ≤ q ∨ q < e)))
    ∧ row_is_in_window (some s) (some e) e = false
    ∧ row_is_in_window (some s) (some s) q = false := by
  refine ⟨fun hle => ?_, fun hlt => ?_, ?_, ?_⟩
  · simp [row_is_in_window, if_pos hle]
  · rw [row_is_in_window, if_neg (by omega)]
    simp [ge_iff_le]
  · rw [row_is_in_window]
    split <;> simp <;> omega
  · rw [row_is_in_window]
    split <;> simp <;> omega

/-- Witness for `row_is_in_window_spec`: an overnight 21:00–02:00 window
(in seconds, 75600–7200) matches a 23:00 query (82800). -/
theorem row_is_in_window_spec_witness :
    row_is_in_window (some 75600) (some 7200) 82800 = true :=
  ((row_is_in_window_spec 75600 7200 82800).2.1 (by decide)).mpr
    (Or.inl (by decide))

/-- C8: with both times present, `is_all_day` is true iff the start is
exactly midnight and the end is at or after 23:00:00 (82800 s); in
particular it holds at (00:00:00, 23:00:00), and fails at
(00:00:00, 22:59:59) and at (00:00:01, 23:30:00). -/
theorem is_all_day_spec :
    (∀ s e : Nat, is_all_day (some s) (some e) = true ↔ (s = 0 ∧ 82800 ≤ e))
    ∧ is_all_day (some 0) (some 82800) = true
    ∧ is_all_day (some 0) (some 82799) = false
    ∧ is_all_day (some 1) (some 84600) = false := by
  refine ⟨fun s e => ?_, by decide, by decide, by decide⟩
  simp [is_all_day]

/-- C6: the favorites merge returns a mapping defined exactly on the
selected keys; a selected key present in the old mapping keeps its old tags,
a newly selected key gets the empty tag list, and an unselected key is
absent from the result. -/
theorem new_favorites_spec (old : String → Option (List String))
    (sel : List String) (k : String) :
    ((new_favorites sel old k).isSome = true ↔ k ∈ sel)
    ∧ (k ∈ sel → ∀ tags, old k = some tags → new_favorites sel old k = some tags)
    ∧ (k ∈ sel → old k = none → new_favorites sel old k = some [])
    ∧ (k ∉ sel → new_favorites sel old k = none) := by
  by_cases h : k ∈ sel
  · refine ⟨by simp [new_favorites, h], fun _ tags htags => ?_, fun _ hnone => ?_, fun hc => absurd h hc⟩
    · simp [new_favorites, h, htags]
    · simp [new_favorites, h, hnone]
  · refine ⟨by simp [new_favorites, h], fun hc => absurd hc h, fun hc => absurd hc h, fun _ => ?_⟩
    simp [new_favorites, h]

/-- Witness for `new_favorites_spec`, realising the spec's example
`merge({"A::B": {"tags":["x"]}}, {"A::B", "C::D"})`: the newly selected
key `"C::D"` is assigned the empty tag list. -/
theorem new_favorites_spec_witness :
    new_favorites ["A::B", "C::D"]
      (fun k => if k = "A::B" then some ["x"] else none) "C::D" = some [] :=
  (new_favorites_spec (fun k => if k = "A::B" then some ["x"] else none)
      ["A::B", "C::D"] "C::D").2.2.1 (by decide) (by decide)

/-- C7: the favorites loader returns the empty mapping, without propagating
any error, when the file is absent, when parsing raises, and when the
top-level value is not a dict; and the saver returns normally whatever the
outcome of the underlying write. -/
theorem favorites_io_spec :
    (∀ p, load_favorites_from_file false p = .ok (.jdict []))
    ∧ (∀ e, load_favorites_from_file true (.error e) = .ok (.jdict []))
    ∧ (∀ v : JsonVal, (∀ es, v ≠ .jdict es) →
        load_favorites_from_file true (.ok v) = .ok (.jdict []))
    ∧ (∀ w, save_favorites_to_file w = .ok ()) := by
  refine ⟨fun p => rfl, fun e => rfl, fun v hv => ?_, fun w => ?_⟩
  · cases v with
    | jdict es => exact absurd rfl (hv es)
    | jlist _ => rfl
    | jstr _ => rfl
    | jnum _ => rfl
    | jbool _ => rfl
    | jnull => rfl
  · cases w <;> rfl

/-- Witness for `favorites_io_spec`: a file containing the JSON list `[]`
loads as the empty mapping. -/
theorem favorites_io_spec_witness :
    load_favorites_from_file true (.ok (.jlist [])) = .ok (.jdict []) :=
  favorites_io_spec.2.2.1 (.jlist []) (fun _ h => JsonVal.noConfusion h)

/-- C9: both core functions degrade instead of failing: the window matcher
returns `false` for every query whenever the start or the end time is
missing, and the price annotator maps the empty string to itself. (Both are
total Lean functions, so no modelled input raises.) -/
theorem totality_spec :
    (∀ (e : Option Nat) (q : Nat), row_is_in_window none e q = false)
    ∧ (∀ (s : Option Nat) (q : Nat), row_is_in_window s none q = false)
    ∧ fix_prices "" = "" := by
  refine ⟨fun e q => by cases e <;> rfl, fun s q => by cases s <;> rfl, rfl⟩

end VegasHH
